import Mathlib

/-!
Shallow embedding of `cfn_docgen/__init__.py`, a batch extraction tool that
scans AWS CloudFormation documentation markdown pages and emits, per resource
type, the list of `Fn::GetAtt` attribute names and the optional `Ref` return
description.

Modelling conventions:
* A document is a `List (List Char)`: the file's lines, each line a list of
  characters (line terminators are not included; Python's `strip()` removes
  them anyway on every code path that reads lines).
* Python strings are `List Char`; `str.strip()` / `str.split()` / `re` are
  translated character by character.  Whitespace is modelled as the ASCII
  whitespace characters (space, tab, newline, carriage return, vertical tab,
  form feed), which is what Python's `strip`/`split`/`\s` recognise on the
  ASCII range of these markdown documents.
* Fallible operations (`IndexError` from `line.split("#")[1]`, the
  `RuntimeError` raised by `ref`, the `FileNotFoundError` from `open`, the
  clone failure) are modelled with `Option` / `Except`.
* The filesystem is a finite association list from file name to file lines;
  `Path.glob` is modelled as a filter over the directory entries in their
  enumeration order.  The clone subprocess is external to the repository and
  is modelled as an abstract outcome record (exit code, captured stderr,
  resulting `doc_source` directory contents).
-/

/-- ASCII whitespace, as recognised by Python's `str.strip`, `str.split()`
and the regex class `\s` on ASCII text. -/
def isWs (c : Char) : Bool :=
  if c = ' ' then true
  else if c = '\t' then true
  else if c = '\n' then true
  else if c = '\r' then true
  else if c = '\x0b' then true
  else if c = '\x0c' then true
  else false

/-- Python `s.strip()`: remove leading and trailing whitespace. -/
def trimChars (s : List Char) : List Char :=
  ((s.dropWhile isWs).reverse.dropWhile isWs).reverse

/-- The backtick character (written via a string literal). -/
def backtickChar : Char := ("`".data).headD ' '

/-- Boolean character inequality test, used as a `takeWhile` predicate. -/
def neChar (a : Char) (c : Char) : Bool :=
  if c = a then false else true

/-- Python `s.split(sep)` for a single-character separator: split at every
occurrence of `sep`, keeping empty segments. -/
def pySplit (sep : Char) : List Char → List (List Char)
  | [] => [[]]
  | c :: rest =>
    if c = sep then [] :: pySplit sep rest
    else
      match pySplit sep rest with
      | [] => [[c]]
      | seg :: segs => (c :: seg) :: segs

/-- Helper for `splitWs`: `cur` is the (reversed) token currently being read. -/
def splitWsAux : List Char → List Char → List (List Char)
  | [], cur => if cur.isEmpty then [] else [cur.reverse]
  | c :: rest, cur =>
    if isWs c then
      if cur.isEmpty then splitWsAux rest [] else cur.reverse :: splitWsAux rest []
    else splitWsAux rest (c :: cur)

/-- Python `s.split()` with no argument: split on runs of whitespace,
discarding empty tokens. -/
def splitWs (s : List Char) : List (List Char) :=
  splitWsAux s []

/-- Substring test, Python's `needle in hay`. -/
def containsSub (needle : List Char) : List Char → Bool
  | [] => needle.isEmpty
  | c :: rest => needle.isPrefixOf (c :: rest) || containsSub needle rest

/-- `ResourcePage._lines`: every line of the document, stripped, with blank
lines removed (in order). -/
def linesOf (doc : List (List Char)) : List (List Char) :=
  (doc.map trimChars).filter (fun l => !l.isEmpty)

/-- The raw first line of the file, as returned by `f.readline()` (the empty
string for an empty file). -/
def firstLine (doc : List (List Char)) : List Char :=
  doc.headD []

/-- `ResourcePage.resource_name`:
`line.split("#")[1].strip().split("<")[0].strip()`.
`none` models the `IndexError` raised when the first line has no `#`. -/
def resource_name? (doc : List (List Char)) : Option (List Char) :=
  match pySplit '#' (firstLine doc) with
  | _ :: seg :: _ =>
      some (trimChars ((pySplit '<' (trimChars seg)).headD []))
  | _ => none

/-- The marker substring `-fn::getatt` looked for by `getatt_targets`. -/
def getattNeedle : List Char := ("-fn::getatt").data

/-- Python `token.replace(chr(96), "")`: remove every backtick. -/
def removeBackticks (s : List Char) : List Char :=
  s.filter (fun c => neChar backtickChar c)

/-- `ResourcePage.getatt_targets` over an explicit line stream: for each line
containing `-fn::getatt`, yield `line.split()[0].strip().replace(backtick,"")`.
`none` models the `IndexError` that `line.split()[0]` would raise on a line
with no tokens (proved unreachable for lines produced by `linesOf`). -/
def getattScan : List (List Char) → Option (List (List Char))
  | [] => some []
  | l :: rest =>
    if containsSub getattNeedle l then
      match splitWs l with
      | [] => none
      | t :: _ =>
        match getattScan rest with
        | none => none
        | some ts => some (removeBackticks (trimChars t) :: ts)
    else getattScan rest

/-- `getatt_targets` of a whole document. -/
def getatt_targets (doc : List (List Char)) : Option (List (List Char)) :=
  getattScan (linesOf doc)

/-- Specification-level description of `getatt_targets`: one name per line
containing the marker, namely the line's first whitespace-delimited token with
all backticks removed. -/
def getatt_spec (doc : List (List Char)) : List (List Char) :=
  (linesOf doc).filterMap (fun l =>
    if containsSub getattNeedle l then
      some (removeBackticks ((splitWs l).headD []))
    else none)

/-- The literal text of the regular expression `REF_RE` before the capture. -/
def refNeedle : List Char := ("`Ref` returns").data

/-- A character the capture group `[^\\,]+` of `REF_RE` must not contain. -/
def isRefDelim (c : Char) : Bool :=
  if c = '\\' then true else if c = ',' then true else false

/-- The run of characters matched by the capture group `[^\\,]+`. -/
def takeNonDelim (s : List Char) : List Char :=
  s.takeWhile (fun c => !isRefDelim c)

/-- Matching of `\s*([^\\,]+)` against the text after `` `Ref` returns ``,
with the backtracking semantics of Python's `re`: the greedy `\s*` first
consumes the whole whitespace run; if the following character is a delimiter
(or the string ends) it gives back one whitespace character so that `[^\\,]+`
can match it. -/
def matchAfterReturns (s : List Char) : Option (List Char) :=
  match takeNonDelim (s.dropWhile isWs), (s.takeWhile isWs).reverse with
  | c :: cs, _ => some (c :: cs)
  | [], c :: _ => some [c]
  | [], [] => none

/-- `REF_RE.search(line).group(1)`: try each start position from the left;
at the first position where the literal `` `Ref` returns `` matches and the
rest of the pattern succeeds, return the capture. -/
def refSearch : List Char → Option (List Char)
  | [] => none
  | c :: rest =>
    if refNeedle.isPrefixOf (c :: rest) then
      match matchAfterReturns ((c :: rest).drop refNeedle.length) with
      | some cap => some cap
      | none => refSearch rest
    else refSearch rest

/-- The fixed phrase a line must contain before `REF_RE` is tried. -/
def refPhrase : List Char :=
  ("logical ID of this resource to the intrinsic `Ref` function").data

/-- The heading prefix that turns candidate tracking on. -/
def refHeaderOn : List Char := ("### Ref").data

/-- The heading prefix that turns candidate tracking off. -/
def refHeaderOff : List Char := ("### Fn::GetAtt").data

/-- The candidate-collecting loop of `ResourcePage.ref`: the heading check
updates `tracking` first, then (with the updated flag) the phrase test and
the regex search run on the same line. -/
def refScanGo : List (List Char) → Bool → List (List Char)
  | [], _ => []
  | l :: rest, tracking =>
    let tracking' :=
      if refHeaderOn.isPrefixOf l then true
      else if refHeaderOff.isPrefixOf l then false
      else tracking
    let here :=
      if tracking' && containsSub refPhrase l then
        match refSearch l with
        | some cap => [cap]
        | none => []
      else []
    here ++ refScanGo rest tracking'

/-- All candidates collected by `ref`'s scan (tracking starts off). -/
def refCandidates (lines : List (List Char)) : List (List Char) :=
  refScanGo lines false

/-- Errors that abort a run (each models one Python exception site). -/
inductive RunError where
  /-- `FileNotFoundError` from `open` in `ResourcePage.__enter__`. -/
  | notFound (name : List Char)
  /-- `IndexError` from `resource_name` when the first line has no `#` —
  raised either when `main` stores the record or while `ref` formats its
  ambiguity message. -/
  | badHeader
  /-- `RuntimeError("too many ref target candidates for {name}: {candidates}")`;
  the message's resource name and candidate list are kept structurally. -/
  | ambiguousRef (resource : List Char) (candidates : List (List Char))
  /-- `RuntimeError("cloning source: {stderr}")`. -/
  | cloneFailed (stderr : List Char)
deriving DecidableEq

/-- `ResourcePage.ref`: zero candidates gives no value, exactly one is
returned, more than one raises `RuntimeError` — but Python evaluates
`self.resource_name()` while formatting that error's message, so when the
first line lacks a `#` the header `IndexError` propagates instead, carrying
neither the resource name nor the candidate list. -/
def ref (doc : List (List Char)) : Except RunError (Option (List Char)) :=
  match refCandidates (linesOf doc) with
  | [] => Except.ok none
  | [c] => Except.ok (some c)
  | cs =>
    match resource_name? doc with
    | none => Except.error RunError.badHeader
    | some n => Except.error (RunError.ambiguousRef n cs)

/-- One output record: the value stored per resource name by `main`
(`targets` then `ref`, matching the JSON key order). -/
structure Record where
  targets : List (List Char)
  ref : Option (List Char)
deriving DecidableEq

/-- Processing of one opened document by the loop body of `main`, in Python
evaluation order: the `targets` list is built first, then `ref()` runs (it
may raise), then `resource_name()` runs (it may raise). -/
def processPage (doc : List (List Char)) : Except RunError ((List Char) × Record) :=
  let ts := (getatt_targets doc).getD []
  match ref doc with
  | Except.error e => Except.error e
  | Except.ok r =>
    match resource_name? doc with
    | none => Except.error RunError.badHeader
    | some n => Except.ok (n, ⟨ts, r⟩)

/-- The glob pattern prefix of `aws-resource-*.md`. -/
def globPre : List Char := ("aws-resource-").data

/-- The glob pattern suffix of `aws-resource-*.md`. -/
def globSuf : List Char := (".md").data

/-- Whether a directory entry name matches the glob `aws-resource-*.md`
(`*` may match the empty string, so prefix and suffix must not overlap). -/
def matchesGlob (name : List Char) : Bool :=
  globPre.isPrefixOf name && globSuf.isSuffixOf name
    && decide (globPre.length + globSuf.length ≤ name.length)

/-- The hard-coded extra path appended by `list_files`. -/
def s3Name : List Char := ("aws-properties-s3-bucket.md").data

/-- `list_files`: the glob matches in directory enumeration order, followed
unconditionally by the S3 special-case path. -/
def list_files (entries : List (List Char)) : List (List Char) :=
  entries.filter matchesGlob ++ [s3Name]

/-- A directory: file names with their contents, in enumeration order. -/
def Dir := List ((List Char) × List (List Char))

/-- `open(path)`: find the file's contents, `none` when the file is absent. -/
def fsLookup (fs : Dir) (n : List Char) : Option (List (List Char)) :=
  match fs with
  | [] => none
  | (k, v) :: rest => if k = n then some v else fsLookup rest n

/-- Python `dict` assignment `d[k] = v`: overwrite in place when the key
exists (keeping its original position), append otherwise. -/
def dictInsert (k : List Char) (v : Record) :
    List ((List Char) × Record) → List ((List Char) × Record)
  | [] => [(k, v)]
  | (k', v') :: rest =>
    if k' = k then (k, v) :: rest else (k', v') :: dictInsert k v rest

/-- The driver loop of `main` over a list of file names: open each file,
process it, store the record under the resource name. -/
def runFilesAux (fs : Dir) : List (List Char) → List ((List Char) × Record) →
    Except RunError (List ((List Char) × Record))
  | [], acc => Except.ok acc
  | n :: rest, acc =>
    match fsLookup fs n with
    | none => Except.error (RunError.notFound n)
    | some doc =>
      match processPage doc with
      | Except.error e => Except.error e
      | Except.ok (rn, rec) => runFilesAux fs rest (dictInsert rn rec acc)

/-- `main` with a `LocalSource`: list the files of the root directory and
fold the driver loop over them, starting from the empty mapping. -/
def runLocal (fs : Dir) : Except RunError (List ((List Char) × Record)) :=
  runFilesAux fs (list_files (fs.map Prod.fst)) []

/-- Whether an `Except` value is a success. -/
def exceptOk {ε α : Type} : Except ε α → Bool
  | Except.ok _ => true
  | Except.error _ => false

/-- A file name of a directory opens and processes successfully. -/
def processable (fs : Dir) (n : List Char) : Bool :=
  match fsLookup fs n with
  | some doc => exceptOk (processPage doc)
  | none => false

/-- Outcome of the external `git clone` subprocess (a collaborator outside
this repository): exit status, captured stderr, and on success the entries
of the checkout's `doc_source` directory. -/
structure CloneOutcome where
  returncode : Int
  stderr : List Char
  entries : List ((List Char) × List (List Char))
deriving DecidableEq

/-- `RemoteSource.files`: raise `RuntimeError("cloning source: {stderr}")`
on a non-zero exit status before yielding anything; otherwise list the files
of the checkout's `doc_source` directory. -/
def remoteFiles (c : CloneOutcome) : Except RunError (List (List Char)) :=
  if c.returncode ≠ 0 then Except.error (RunError.cloneFailed c.stderr)
  else Except.ok (list_files (c.entries.map Prod.fst))

/-- The Ref sentence of the spec's SQS-style example (queue URL form). -/
def refSentenceURL : List Char :=
  ("Use the logical ID of this resource to the intrinsic `Ref` function, `Ref` returns the queue URL.").data

/-- A second, distinct Ref sentence (queue name form). -/
def refSentenceName : List Char :=
  ("Use the logical ID of this resource to the intrinsic `Ref` function, `Ref` returns the queue name.").data

/-- Document with a `### Ref` section containing the example sentence. -/
def c1doc : List (List Char) := [("### Ref").data, refSentenceURL]

/-- Document whose first line is `# Foo::Bar <i>docs</i>`. -/
def c2doc : List (List Char) := [("# Foo::Bar <i>docs</i>").data]

/-- Document whose first line contains two `#` characters after the leading
one does its work: `# A#B`. -/
def c2cexDoc : List (List Char) := [("# A#B").data]

/-- Document containing a `-fn::getatt` line with a backticked first token. -/
def c3doc : List (List Char) :=
  [("# Some::Resource").data, ("`Attr1` -fn::getatt").data]

/-- Document with no `-fn::getatt` line. -/
def c3noDoc : List (List Char) :=
  [("# Some::Resource").data, ("no attributes here").data]

/-- Document where the matching phrase appears only under `### Fn::GetAtt`. -/
def c4doc : List (List Char) := [("### Fn::GetAtt").data, refSentenceURL]

/-- Document with no heading at all. -/
def c4plain : List (List Char) := [("hello world").data]

/-- Document with two distinct matching Ref sentences while tracking is on. -/
def c5doc : List (List Char) :=
  [("# AWS::SQS::Queue").data, ("### Ref").data, refSentenceURL, refSentenceName]

/-- Document with two distinct matching Ref sentences but a first line
without `#`. -/
def c5bad : List (List Char) :=
  [("no hash here").data, ("### Ref").data, refSentenceURL, refSentenceName]

/-- Directory with two glob-matching files and no S3 special-case file. -/
def c6fs : Dir :=
  [(("aws-resource-foo.md").data, [("# Foo::Res").data]),
   (("aws-resource-bar.md").data, [("# Bar::Res").data])]

/-- A failed clone outcome. -/
def c7clone : CloneOutcome :=
  ⟨128, ("fatal: unable to access repository").data, []⟩

/-- Directory in which two documents derive the same resource name, plus the
S3 special-case file. -/
def c8fs : Dir :=
  [(("aws-resource-a.md").data, [("# Dup::Res").data, ("`A1` -fn::getatt").data]),
   (("aws-resource-b.md").data, [("# Dup::Res").data, ("`B1` -fn::getatt").data]),
   (("aws-properties-s3-bucket.md").data, [("# AWS::S3::Bucket").data])]

theorem splitWsAux_ne_nil (l : List Char) (cur : List Char) (h : cur ≠ []) :
    splitWsAux l cur ≠ [] := by
  induction l generalizing cur with
  | nil =>
    simp only [splitWsAux]
    rw [if_neg (by simpa using h)]
    simp
  | cons c rest ih =>
    simp only [splitWsAux]
    by_cases hc : isWs c = true
    · rw [if_pos hc, if_neg (by simpa using h)]
      simp
    · rw [if_neg hc]
      exact ih (c :: cur) (by simp)

theorem splitWs_ne_nil_of_mem (l : List Char) (c : Char) (hc : c ∈ l)
    (hw : isWs c = false) : splitWs l ≠ [] := by
  unfold splitWs
  induction l with
  | nil => cases hc
  | cons d rest ih =>
    simp only [splitWsAux]
    by_cases hd : isWs d = true
    · have hcr : c ∈ rest := by
        rcases List.mem_cons.mp hc with h | h
        · subst h; rw [hw] at hd; cases hd
        · exact h
      rw [if_pos hd]
      simpa using ih hcr
    · rw [if_neg hd]
      exact splitWsAux_ne_nil rest [d] (by simp)

theorem splitWsAux_token_nonWs (l : List Char) :
    ∀ cur, (∀ c ∈ cur, isWs c = false) →
      ∀ t ∈ splitWsAux l cur, ∀ c ∈ t, isWs c = false := by
  induction l with
  | nil =>
    intro cur hcur t ht c hc
    simp only [splitWsAux] at ht
    by_cases h : cur.isEmpty
    · rw [if_pos h] at ht; cases ht
    · rw [if_neg h] at ht
      rcases List.mem_cons.mp ht with h' | h'
      · subst h'; exact hcur c (List.mem_reverse.mp hc)
      · cases h'
  | cons d rest ih =>
    intro cur hcur t ht c hc
    simp only [splitWsAux] at ht
    by_cases hd : isWs d = true
    · rw [if_pos hd] at ht
      by_cases h0 : cur.isEmpty
      · rw [if_pos h0] at ht
        exact ih [] (by simp) t ht c hc
      · rw [if_neg h0] at ht
        rcases List.mem_cons.mp ht with h' | h'
        · subst h'; exact hcur c (List.mem_reverse.mp hc)
        · exact ih [] (by simp) t h' c hc
    · rw [if_neg hd] at ht
      refine ih (d :: cur) ?_ t ht c hc
      intro x hx
      rcases List.mem_cons.mp hx with h' | h'
      · subst h'; simpa using hd
      · exact hcur x h'

theorem mem_takeWhile_pred {p : Char → Bool} {l : List Char} {c : Char}
    (h : c ∈ l.takeWhile p) : p c = true := by
  induction l with
  | nil => cases h
  | cons d rest ih =>
    by_cases hd : p d
    · rw [List.takeWhile_cons_of_pos hd] at h
      rcases List.mem_cons.mp h with h' | h'
      · subst h'; exact hd
      · exact ih h'
    · rw [List.takeWhile_cons_of_neg hd] at h
      cases h

theorem mem_of_mem_takeWhile {p : Char → Bool} {l : List Char} {c : Char}
    (h : c ∈ l.takeWhile p) : c ∈ l := by
  induction l with
  | nil => cases h
  | cons d rest ih =>
    by_cases hd : p d
    · rw [List.takeWhile_cons_of_pos hd] at h
      rcases List.mem_cons.mp h with h' | h'
      · subst h'; exact List.mem_cons_self _ _
      · exact List.mem_cons_of_mem _ (ih h')
    · rw [List.takeWhile_cons_of_neg hd] at h
      cases h

theorem trimChars_of_nonWs (t : List Char) (h : ∀ c ∈ t, isWs c = false) :
    trimChars t = t := by
  have h1 : t.dropWhile isWs = t := by
    cases t with
    | nil => rfl
    | cons c rest =>
      exact List.dropWhile_cons_of_neg (by simp [h c (List.mem_cons_self _ _)])
  have h2 : t.reverse.dropWhile isWs = t.reverse := by
    rcases hr : t.reverse with _ | ⟨c, rest⟩
    · rfl
    · have hc : c ∈ t := List.mem_reverse.mp (by rw [hr]; exact List.mem_cons_self _ _)
      rw [List.dropWhile_cons_of_neg (by simp [h c hc])]
  unfold trimChars
  rw [h1, h2, List.reverse_reverse]

theorem mem_linesOf (doc : List (List Char)) (l : List Char) (h : l ∈ linesOf doc) :
    l ≠ [] ∧ ∃ raw, trimChars raw = l := by
  unfold linesOf at h
  obtain ⟨hm, hne⟩ := List.mem_filter.mp h
  refine ⟨?_, ?_⟩
  · intro hnil; subst hnil; simp at hne
  · obtain ⟨raw, _, hr⟩ := List.mem_map.mp hm
    exact ⟨raw, hr⟩

theorem trimChars_mem_nonWs (raw : List Char) (h : trimChars raw ≠ []) :
    ∃ c ∈ trimChars raw, isWs c = false := by
  unfold trimChars at h ⊢
  rcases hd : (raw.dropWhile isWs).reverse.dropWhile isWs with _ | ⟨c, rest⟩
  · rw [hd] at h; simp at h
  · refine ⟨c, ?_, ?_⟩
    · exact List.mem_reverse.mpr (List.mem_cons_self _ _)
    · have hw := List.head?_dropWhile_not isWs (raw.dropWhile isWs).reverse
      rw [hd] at hw
      simpa using hw

theorem splitWs_linesOf_ne_nil (doc : List (List Char)) (l : List Char)
    (h : l ∈ linesOf doc) : splitWs l ≠ [] := by
  obtain ⟨hne, raw, hraw⟩ := mem_linesOf doc l h
  obtain ⟨c, hc, hw⟩ := trimChars_mem_nonWs raw (by rw [hraw]; exact hne)
  rw [← hraw]
  exact splitWs_ne_nil_of_mem _ c hc hw

theorem getattScan_eq_spec (lines : List (List Char))
    (h : ∀ l ∈ lines, splitWs l ≠ []) :
    getattScan lines = some (lines.filterMap (fun l =>
      if containsSub getattNeedle l then
        some (removeBackticks ((splitWs l).headD []))
      else none)) := by
  induction lines with
  | nil => rfl
  | cons l rest ih =>
    simp only [getattScan, List.filterMap_cons]
    by_cases hc : containsSub getattNeedle l = true
    · rw [if_pos hc, if_pos hc]
      rcases hs : splitWs l with _ | ⟨t, ts⟩
      · exact absurd hs (h l (List.mem_cons_self _ _))
      · have htok : ∀ c ∈ t, isWs c = false := by
          intro c hcmem
          refine splitWsAux_token_nonWs l [] (by simp) t ?_ c hcmem
          show t ∈ splitWs l
          rw [hs]
          exact List.mem_cons_self _ _
        rw [ih (fun x hx => h x (List.mem_cons_of_mem _ hx))]
        simp [trimChars_of_nonWs t htok]
    · rw [if_neg hc, if_neg hc]
      exact ih (fun x hx => h x (List.mem_cons_of_mem _ hx))

/-- C3: for every document, `getatt_targets` succeeds and yields, in document
order, exactly one name per non-blank trimmed line containing `-fn::getatt`,
namely the line's first whitespace-delimited token with all backticks removed;
in particular it yields `Attr1` for the line ``​`Attr1` -fn::getatt`` and an
empty sequence for a document with no such line. -/
theorem getatt_targets_correct :
    (∀ doc : List (List Char), getatt_targets doc = some (getatt_spec doc)) ∧
    getatt_targets c3doc = some [("Attr1").data] ∧
    getatt_targets c3noDoc = some [] := by
  refine ⟨?_, by decide, by decide⟩
  intro doc
  unfold getatt_targets getatt_spec
  exact getattScan_eq_spec (linesOf doc) (fun l hl => splitWs_linesOf_ne_nil doc l hl)

/-- C10: `getatt_targets` is total: every line it inspects comes from the
stream of trimmed non-blank lines, so splitting on whitespace always yields at
least one token, and the extraction never fails. -/
theorem getatt_total :
    ∀ doc : List (List Char),
      (∀ l ∈ linesOf doc, splitWs l ≠ []) ∧ (getatt_targets doc).isSome = true := by
  intro doc
  refine ⟨fun l hl => splitWs_linesOf_ne_nil doc l hl, ?_⟩
  unfold getatt_targets
  rw [getattScan_eq_spec (linesOf doc) (fun l hl => splitWs_linesOf_ne_nil doc l hl)]
  rfl

/-- Witness for C10 at a concrete document. -/
theorem getatt_total_witness :
    splitWs (("`Attr1` -fn::getatt").data) ≠ [] ∧
    (getatt_targets c3doc).isSome = true := by
  refine ⟨(getatt_total c3doc).1 (("`Attr1` -fn::getatt").data) ?_, (getatt_total c3doc).2⟩
  decide

theorem ws_not_delim (c : Char) (h : isWs c = true) : isRefDelim c = false := by
  unfold isWs at h
  split_ifs at h with h1 h2 h3 h4 h5 h6
  · subst h1; decide
  · subst h2; decide
  · subst h3; decide
  · subst h4; decide
  · subst h5; decide
  · subst h6; decide

theorem matchAfterReturns_sound (s : List Char) (cap : List Char)
    (h : matchAfterReturns s = some cap) :
    cap ≠ [] ∧ ∀ c ∈ cap, isRefDelim c = false := by
  unfold matchAfterReturns at h
  rcases h1 : takeNonDelim (s.dropWhile isWs) with _ | ⟨c, cs⟩ <;> rw [h1] at h
  · rcases h2 : (s.takeWhile isWs).reverse with _ | ⟨d, ds⟩ <;> rw [h2] at h
    · cases h
    · simp only [Option.some.injEq] at h
      subst h
      refine ⟨by simp, ?_⟩
      intro x hx
      have hxd : x = d := by
        rcases List.mem_cons.mp hx with h' | h'
        · exact h'
        · cases h'
      subst hxd
      have hdw : isWs x = true := by
        have hd : x ∈ s.takeWhile isWs :=
          List.mem_reverse.mp (by rw [h2]; exact List.mem_cons_self _ _)
        exact mem_takeWhile_pred hd
      exact ws_not_delim x hdw
  · simp only [Option.some.injEq] at h
    subst h
    refine ⟨by simp, ?_⟩
    intro x hx
    have hx' : x ∈ takeNonDelim (s.dropWhile isWs) := by
      rw [h1]; exact hx
    have := mem_takeWhile_pred (p := fun c => !isRefDelim c) hx'
    simpa using this

theorem refSearch_sound (l : List Char) (cap : List Char)
    (h : refSearch l = some cap) :
    cap ≠ [] ∧ ∀ c ∈ cap, isRefDelim c = false := by
  induction l with
  | nil => cases h
  | cons c rest ih =>
    unfold refSearch at h
    by_cases hp : refNeedle.isPrefixOf (c :: rest) = true
    · rw [if_pos hp] at h
      rcases hm : matchAfterReturns ((c :: rest).drop refNeedle.length)
          with _ | cap' <;> rw [hm] at h
      · exact ih h
      · simp only [Option.some.injEq] at h
        subst h
        exact matchAfterReturns_sound _ _ hm
    · rw [if_neg hp] at h
      exact ih h

theorem refScanGo_mem (lines : List (List Char)) :
    ∀ tracking cap, cap ∈ refScanGo lines tracking →
      ∃ l, refSearch l = some cap := by
  induction lines with
  | nil => intro _ _ h; cases h
  | cons l rest ih =>
    intro tracking cap h
    unfold refScanGo at h
    rw [List.mem_append] at h
    rcases h with h' | h'
    · refine ⟨l, ?_⟩
      rcases hs : refSearch l with _ | cap'
      · rw [hs] at h'
        split at h' <;> simp at h'
      · rw [hs] at h'
        split at h' <;> simp_all
    · exact ih _ cap h'

theorem refScanGo_no_header (lines : List (List Char))
    (h : ∀ l ∈ lines, refHeaderOn.isPrefixOf l = false) :
    refScanGo lines false = [] := by
  induction lines with
  | nil => rfl
  | cons l rest ih
  =>
    have h0 := h l (List.mem_cons_self _ _)
    unfold refScanGo
    rw [h0]
    by_cases hoff : refHeaderOff.isPrefixOf l = true
    · simp only [hoff]
      simp only [Bool.false_eq_true, if_false, Bool.false_and]
      simpa using ih (fun x hx => h x (List.mem_cons_of_mem _ hx))
    · simp only [Bool.false_eq_true, if_false, hoff, Bool.false_and]
      simpa using ih (fun x hx => h x (List.mem_cons_of_mem _ hx))

/-- C1 counterexample: for the document whose `### Ref` section contains the
sentence ``​Use the logical ID of this resource to the intrinsic `Ref`
function, `Ref` returns the queue URL.``, `ref` returns `the queue URL.`
(trailing period included), which is not the claimed `the queue URL`. -/
theorem ref_trailing_period_counterexample :
    ref c1doc = Except.ok (some (("the queue URL.").data)) ∧
    ("the queue URL.").data ≠ ("the queue URL").data :=
  ⟨rfl, by decide⟩

/-- C1 amended: for that document `ref` returns exactly `the queue URL.` —
the capture runs from after `` `Ref` returns`` and the following whitespace up
to but not including a backslash or comma, so the sentence's trailing period
(which is neither) is part of the returned string. -/
theorem ref_trailing_period :
    ref c1doc = Except.ok (some (("the queue URL.").data)) := rfl

/-- C4: when the scan collects zero candidates `ref` returns no value rather
than failing; in particular this holds whenever no line starts with `### Ref`
(tracking never becomes true), and for the concrete document whose matching
phrase appears only inside a `### Fn::GetAtt` section. -/
theorem ref_no_candidates_none :
    (∀ doc : List (List Char),
      refCandidates (linesOf doc) = [] → ref doc = Except.ok none) ∧
    (∀ doc : List (List Char),
      (∀ l ∈ linesOf doc, refHeaderOn.isPrefixOf l = false) →
      ref doc = Except.ok none) ∧
    ref c4doc = Except.ok none := by
  refine ⟨?_, ?_, rfl⟩
  · intro doc h
    unfold ref
    rw [h]
  · intro doc h
    unfold ref refCandidates
    rw [refScanGo_no_header _ h]

/-- Witness for C4 at a concrete document with no `### Ref` heading. -/
theorem ref_no_candidates_none_witness : ref c4plain = Except.ok none :=
  ref_no_candidates_none.2.1 c4plain (by decide)

/-- C5 counterexample: a document collecting two candidates while tracking
is true whose first line lacks a `#`: `ref` raises the bare header fault
(formatting the ambiguity message calls `resource_name`, whose `IndexError`
propagates first), an error that names no resource and lists no candidates —
not the ambiguity error the claim asserts for every such document. -/
theorem ref_ambiguous_headerless_counterexample :
    refCandidates (linesOf c5bad)
      = [("the queue URL.").data, ("the queue name.").data] ∧
    ref c5bad = Except.error RunError.badHeader :=
  ⟨rfl, rfl⟩

/-- C5 amended: whenever more than one candidate is collected, `ref` never
silently returns a value; when the resource name is derivable (the first line
has a `#`) it fails with the ambiguity error naming the resource and listing
all candidates, and otherwise the header fault raised while formatting that
message propagates instead. -/
theorem ref_ambiguous_raises :
    ∀ (doc : List (List Char)) (a b : List Char) (rest : List (List Char)),
      refCandidates (linesOf doc) = a :: b :: rest →
      (∀ v, ref doc ≠ Except.ok v) ∧
      (∀ n, resource_name? doc = some n →
        ref doc = Except.error (RunError.ambiguousRef n (a :: b :: rest))) ∧
      (resource_name? doc = none → ref doc = Except.error RunError.badHeader) := by
  intro doc a b rest h
  refine ⟨?_, ?_, ?_⟩
  · intro v hv
    unfold ref at hv
    rw [h] at hv
    rcases hn : resource_name? doc with _ | nm <;> rw [hn] at hv <;>
      exact Except.noConfusion hv
  · intro n hn
    unfold ref
    rw [h, hn]
  · intro hn
    unfold ref
    rw [h, hn]

/-- Witness for C5: the two-sentence document with a proper heading yields
the ambiguity error naming the resource and both candidates. -/
theorem ref_ambiguous_raises_witness :
    ref c5doc = Except.error
      (RunError.ambiguousRef (("AWS::SQS::Queue").data)
        [("the queue URL.").data, ("the queue name.").data]) :=
  (ref_ambiguous_raises c5doc (("the queue URL.").data)
    (("the queue name.").data) [] (by decide)).2.1
    (("AWS::SQS::Queue").data) (by decide)

/-- C9: whenever `ref` returns a value, that value is non-empty, contains
neither a backslash nor a comma, and is the unique candidate collected by the
scan. -/
theorem ref_value_sound :
    ∀ (doc : List (List Char)) (v : List Char),
      ref doc = Except.ok (some v) →
      v ≠ [] ∧ (∀ c ∈ v, c ≠ '\\' ∧ c ≠ ',') ∧
      refCandidates (linesOf doc) = [v] := by
  intro doc v h
  unfold ref at h
  rcases hc : refCandidates (linesOf doc) with _ | ⟨c, cs⟩ <;> rw [hc] at h
  · cases h
  · rcases cs with _ | ⟨c2, cs2⟩
    · simp only [Except.ok.injEq, Option.some.injEq] at h
      subst h
      have hmem : c ∈ refCandidates (linesOf doc) := by
        rw [hc]; exact List.mem_cons_self _ _
      obtain ⟨l, hl⟩ := refScanGo_mem (linesOf doc) false c hmem
      have hs := refSearch_sound l c hl
      refine ⟨hs.1, ?_, rfl⟩
      intro ch hch
      have hd := hs.2 ch hch
      unfold isRefDelim at hd
      constructor
      · intro he; rw [if_pos he] at hd; cases hd
      · intro he
        by_cases hb : ch = '\\'
        · rw [if_pos hb] at hd; cases hd
        · rw [if_neg hb, if_pos he] at hd; cases hd
    · rcases hn : resource_name? doc with _ | nm <;> rw [hn] at h <;>
        exact Except.noConfusion h

/-- Witness for C9 at the single-sentence document. -/
theorem ref_value_sound_witness :
    ("the queue URL.").data ≠ [] ∧
    (∀ c ∈ ("the queue URL.").data, c ≠ '\\' ∧ c ≠ ',') ∧
    refCandidates (linesOf c1doc) = [("the queue URL.").data] :=
  ref_value_sound c1doc (("the queue URL.").data) rfl

theorem pySplit_ne_nil (sep : Char) (s : List Char) : pySplit sep s ≠ [] := by
  induction s with
  | nil => simp [pySplit]
  | cons c rest ih =>
    unfold pySplit
    by_cases h : c = sep
    · rw [if_pos h]; simp
    · rw [if_neg h]
      rcases hp : pySplit sep rest with _ | ⟨seg, segs⟩ <;> simp

theorem pySplit_headD (sep : Char) (s : List Char) :
    (pySplit sep s).headD [] = s.takeWhile (neChar sep) := by
  induction s with
  | nil => rfl
  | cons c rest ih =>
    unfold pySplit
    by_cases h : c = sep
    · rw [if_pos h]
      subst h
      rw [List.takeWhile_cons_of_neg (by simp [neChar])]
      rfl
    · rw [if_neg h]
      rcases hp : pySplit sep rest with _ | ⟨seg, segs⟩
      · exact absurd hp (pySplit_ne_nil sep rest)
      · rw [hp] at ih
        simp only [List.headD_cons] at ih
        rw [List.takeWhile_cons_of_pos (by simp [neChar, h])]
        simpa using ih

theorem pySplit_append (sep : Char) (pre mid : List Char) (h : sep ∉ pre) :
    pySplit sep (pre ++ sep :: mid) = pre :: pySplit sep mid := by
  induction pre with
  | nil => simp [pySplit]
  | cons c pre' ih =>
    have hc : ¬ (c = sep) := by
      intro he
      exact h (by rw [he]; exact List.mem_cons_self _ _)
    rw [List.cons_append]
    conv_lhs => rw [pySplit]
    rw [if_neg hc, ih (fun hm => h (List.mem_cons_of_mem _ hm))]

theorem takeWhile_append_cases (p : Char → Bool) (v r : List Char) :
    ((v ++ r).takeWhile p = v ++ r.takeWhile p ∧ v.takeWhile p = v) ∨
    (v ++ r).takeWhile p = v.takeWhile p := by
  induction v with
  | nil => exact Or.inl ⟨by simp, rfl⟩
  | cons c v' ih =>
    by_cases hc : p c = true
    · rcases ih with ⟨h1, h2⟩ | h1
      · refine Or.inl ⟨?_, ?_⟩
        · rw [List.cons_append, List.takeWhile_cons_of_pos hc, h1, List.cons_append]
        · rw [List.takeWhile_cons_of_pos hc, h2]
      · refine Or.inr ?_
        rw [List.cons_append, List.takeWhile_cons_of_pos hc, h1,
          List.takeWhile_cons_of_pos hc]
    · refine Or.inr ?_
      rw [List.cons_append, List.takeWhile_cons_of_neg (by simpa using hc),
        List.takeWhile_cons_of_neg (by simpa using hc)]

theorem dropWhile_nil_of_all (p : Char → Bool) (w : List Char)
    (h : ∀ c ∈ w, p c = true) : w.dropWhile p = [] := by
  induction w with
  | nil => rfl
  | cons c rest ih =>
    rw [List.dropWhile_cons_of_pos (h c (List.mem_cons_self _ _))]
    exact ih (fun x hx => h x (List.mem_cons_of_mem _ hx))

theorem trimChars_ws_append (w x : List Char) (h : ∀ c ∈ w, isWs c = true) :
    trimChars (w ++ x) = trimChars x := by
  unfold trimChars
  rw [List.dropWhile_append_of_pos h]

theorem trimChars_append_ws (x w : List Char) (h : ∀ c ∈ w, isWs c = true) :
    trimChars (x ++ w) = trimChars x := by
  unfold trimChars
  rw [List.dropWhile_append]
  by_cases hx : (x.dropWhile isWs).isEmpty
  · rw [if_pos hx, dropWhile_nil_of_all isWs w h]
    have hx' : x.dropWhile isWs = [] := by simpa using hx
    rw [hx']
  · rw [if_neg hx, List.reverse_append,
      List.dropWhile_append_of_pos (fun c hc => h c (List.mem_reverse.mp hc))]

theorem trim_takeWhile_right (p : Char → Bool) (v r : List Char)
    (hr : ∀ c ∈ r, isWs c = true) :
    trimChars ((v ++ r).takeWhile p) = trimChars (v.takeWhile p) := by
  rcases takeWhile_append_cases p v r with ⟨h1, h2⟩ | h1
  · rw [h1, h2]
    exact trimChars_append_ws v _ (fun c hc => hr c (mem_of_mem_takeWhile hc))
  · rw [h1]

theorem trim_takeWhile_trim (p : Char → Bool) (hp : ∀ c, isWs c = true → p c = true)
    (s : List Char) :
    trimChars ((trimChars s).takeWhile p) = trimChars (s.takeWhile p) := by
  have hws : ∀ c ∈ s.takeWhile isWs, isWs c = true := fun c hc => mem_takeWhile_pred hc
  have hrhs : trimChars (s.takeWhile p)
      = trimChars ((s.dropWhile isWs).takeWhile p) := by
    conv_lhs => rw [← List.takeWhile_append_dropWhile isWs s]
    rw [List.takeWhile_append_of_pos (fun c hc => hp c (hws c hc))]
    exact trimChars_ws_append _ _ hws
  rw [hrhs]
  have ht : s.dropWhile isWs
      = ((s.dropWhile isWs).reverse.dropWhile isWs).reverse
        ++ ((s.dropWhile isWs).reverse.takeWhile isWs).reverse := by
    conv_lhs => rw [← List.reverse_reverse (s.dropWhile isWs)]
    conv_lhs => rw [← List.takeWhile_append_dropWhile isWs (s.dropWhile isWs).reverse]
    rw [List.reverse_append]
  have hr : ∀ c ∈ ((s.dropWhile isWs).reverse.takeWhile isWs).reverse, isWs c = true :=
    fun c hc => mem_takeWhile_pred (List.mem_reverse.mp hc)
  conv_rhs => rw [ht]
  rw [trim_takeWhile_right p _ _ hr]
  rfl

theorem ws_neChar_lt (c : Char) (h : isWs c = true) : neChar '<' c = true := by
  unfold isWs at h
  split_ifs at h with h1 h2 h3 h4 h5 h6
  · subst h1; decide
  · subst h2; decide
  · subst h3; decide
  · subst h4; decide
  · subst h5; decide
  · subst h6; decide

/-- C2 counterexample: for the document whose first line is `# A#B`,
`resource_name` returns `A` (the text between the first and second `#`),
not `A#B` (the text after the first `#`, which the claim describes). -/
theorem resource_name_hash_counterexample :
    resource_name? c2cexDoc = some (("A").data) ∧ ("A").data ≠ ("A#B").data :=
  ⟨rfl, by decide⟩

/-- C2 amended: for every document whose first line contains a `#`,
`resource_name` returns the text between the first and the second `#` (to the
end of the line when there is no second `#`), truncated before the first `<`
within it and with surrounding whitespace trimmed. -/
theorem resource_name_between_hashes :
    ∀ (doc : List (List Char)) (pre mid : List Char),
      firstLine doc = pre ++ '#' :: mid → '#' ∉ pre →
      resource_name? doc =
        some (trimChars ((mid.takeWhile (neChar '#')).takeWhile (neChar '<'))) := by
  intro doc pre mid hfl hpre
  unfold resource_name?
  rw [hfl, pySplit_append '#' pre mid hpre]
  rcases hm : pySplit '#' mid with _ | ⟨seg, segs⟩
  · exact absurd hm (pySplit_ne_nil '#' mid)
  · have hseg : seg = mid.takeWhile (neChar '#') := by
      have h := pySplit_headD '#' mid
      rw [hm] at h
      simpa using h
    show some (trimChars ((pySplit '<' (trimChars seg)).headD [])) = _
    rw [pySplit_headD '<' (trimChars seg), hseg]
    exact congrArg some (trim_takeWhile_trim (neChar '<') ws_neChar_lt _)

/-- Witness for C2: the amended statement instantiated at
`# Foo::Bar <i>docs</i>` gives exactly `Foo::Bar`. -/
theorem resource_name_between_hashes_witness :
    resource_name? c2doc = some (("Foo::Bar").data) :=
  (resource_name_between_hashes c2doc [] ((" Foo::Bar <i>docs</i>").data)
    (by decide) (by decide)).trans (by decide)

theorem fsLookup_none (fs : Dir) (n : List Char) (h : n ∉ fs.map Prod.fst) :
    fsLookup fs n = none := by
  induction fs with
  | nil => rfl
  | cons p rest ih =>
    obtain ⟨k, v⟩ := p
    unfold fsLookup
    rw [List.map_cons] at h
    rw [if_neg (fun he => h (by rw [he]; exact List.mem_cons_self _ _))]
    exact ih (fun hm => h (List.mem_cons_of_mem _ hm))

theorem runFilesAux_missing_last (fs : Dir) (missing : List Char)
    (hmiss : missing ∉ fs.map Prod.fst) (names : List (List Char)) :
    ∀ acc, (∀ n ∈ names, processable fs n = true) →
      runFilesAux fs (names ++ [missing]) acc
        = Except.error (RunError.notFound missing) := by
  induction names with
  | nil =>
    intro acc _
    show runFilesAux fs [missing] acc = _
    unfold runFilesAux
    rw [fsLookup_none fs missing hmiss]
  | cons n names' ih =>
    intro acc hall
    have hp := hall n (List.mem_cons_self _ _)
    unfold processable at hp
    rcases hl : fsLookup fs n with _ | doc
    · rw [hl] at hp
      simp at hp
    · rw [hl] at hp
      simp only [] at hp
      rcases hpp : processPage doc with e | r <;> rw [hpp] at hp
      · simp [exceptOk] at hp
      · obtain ⟨rn, rec⟩ := r
        show runFilesAux fs (n :: (names' ++ [missing])) acc = _
        simp only [runFilesAux, hl, hpp]
        exact ih (dictInsert rn rec acc)
          (fun x hx => hall x (List.mem_cons_of_mem _ hx))

/-- C6: for every root, the Local source's file sequence is the glob matches
for `aws-resource-*.md` followed unconditionally by the path
`aws-properties-s3-bucket.md`, even when that file does not exist; when it is
absent (and every globbed file processes cleanly), the run aborts with the
not-found fault on that path. -/
theorem list_files_s3_unconditional :
    (∀ entries : List (List Char),
      list_files entries = entries.filter matchesGlob ++ [s3Name]) ∧
    (∀ fs : Dir, s3Name ∉ fs.map Prod.fst →
      (∀ n ∈ (fs.map Prod.fst).filter matchesGlob, processable fs n = true) →
      runLocal fs = Except.error (RunError.notFound s3Name)) ∧
    s3Name ∈ list_files (c6fs.map Prod.fst) := by
  refine ⟨fun _ => rfl, ?_, by decide⟩
  intro fs hs3 hproc
  unfold runLocal list_files
  exact runFilesAux_missing_last fs s3Name hs3 _ [] hproc

/-- Witness for C6: the two-file directory without the S3 file aborts with
the not-found fault on the S3 path. -/
theorem list_files_s3_unconditional_witness :
    runLocal c6fs = Except.error (RunError.notFound s3Name) :=
  list_files_s3_unconditional.2.1 c6fs (by decide) (by decide)

/-- C7: whenever the clone subprocess exits with a non-zero status, the
Remote source fails with the error carrying the captured stderr text and
yields no document paths. -/
theorem remoteFiles_clone_failure :
    ∀ c : CloneOutcome, c.returncode ≠ 0 →
      remoteFiles c = Except.error (RunError.cloneFailed c.stderr) := by
  intro c h
  unfold remoteFiles
  rw [if_pos h]

/-- Witness for C7 at a concrete failed clone. -/
theorem remoteFiles_clone_failure_witness :
    remoteFiles c7clone
      = Except.error (RunError.cloneFailed
          (("fatal: unable to access repository").data)) :=
  remoteFiles_clone_failure c7clone (by decide)

theorem mem_fst_dictInsert (k : List Char) (v : Record)
    (m : List ((List Char) × Record)) (x : List Char)
    (h : x ∈ (dictInsert k v m).map Prod.fst) :
    x ∈ m.map Prod.fst ∨ x = k := by
  induction m with
  | nil =>
    simp only [dictInsert, List.map_cons, List.map_nil] at h
    rcases List.mem_cons.mp h with h' | h'
    · exact Or.inr h'
    · cases h'
  | cons p rest ih =>
    obtain ⟨k', v'⟩ := p
    unfold dictInsert at h
    by_cases he : k' = k
    · rw [if_pos he] at h
      rcases List.mem_cons.mp h with h' | h'
      · exact Or.inr h'
      · exact Or.inl (by rw [List.map_cons]; exact List.mem_cons_of_mem _ h')
    · rw [if_neg he] at h
      rw [List.map_cons] at h
      rcases List.mem_cons.mp h with h' | h'
      · exact Or.inl (by rw [List.map_cons, h']; exact List.mem_cons_self _ _)
      · rcases ih h' with h'' | h''
        · exact Or.inl (by rw [List.map_cons]; exact List.mem_cons_of_mem _ h'')
        · exact Or.inr h''

theorem nodup_dictInsert (k : List Char) (v : Record)
    (m : List ((List Char) × Record)) (h : (m.map Prod.fst).Nodup) :
    ((dictInsert k v m).map Prod.fst).Nodup := by
  induction m with
  | nil => simp [dictInsert]
  | cons p rest ih =>
    obtain ⟨k', v'⟩ := p
    rw [List.map_cons, List.nodup_cons] at h
    unfold dictInsert
    by_cases he : k' = k
    · rw [if_pos he, List.map_cons, List.nodup_cons]
      exact ⟨by rw [← he]; exact h.1, h.2⟩
    · rw [if_neg he, List.map_cons, List.nodup_cons]
      refine ⟨?_, ih h.2⟩
      intro hmem
      rcases mem_fst_dictInsert k v rest k' hmem with h' | h'
      · exact h.1 h'
      · exact he h'

theorem runFilesAux_nodup (fs : Dir) (names : List (List Char)) :
    ∀ acc res, (acc.map Prod.fst).Nodup →
      runFilesAux fs names acc = Except.ok res →
      (res.map Prod.fst).Nodup := by
  induction names with
  | nil =>
    intro acc res hacc h
    simp only [runFilesAux, Except.ok.injEq] at h
    rw [← h]
    exact hacc
  | cons n names' ih =>
    intro acc res hacc h
    unfold runFilesAux at h
    rcases hl : fsLookup fs n with _ | doc <;> rw [hl] at h <;>
      simp only [] at h
    · cases h
    · rcases hpp : processPage doc with e | r <;> rw [hpp] at h <;>
        simp only [] at h
      · cases h
      · obtain ⟨rn, rec⟩ := r
        exact ih (dictInsert rn rec acc) res (nodup_dictInsert rn rec acc hacc) h

/-- C8: the result mapping's keys are always unique, and when two processed
documents derive the same resource name the mapping holds exactly one entry
under that name, with the record of the later-processed document (the
`# Dup::Res` directory evaluates to the second document's record). -/
theorem result_keys_unique :
    (∀ (fs : Dir) (res : List ((List Char) × Record)),
      runLocal fs = Except.ok res → (res.map Prod.fst).Nodup) ∧
    runLocal c8fs = Except.ok
      [(("Dup::Res").data, ⟨[("B1").data], none⟩),
       (("AWS::S3::Bucket").data, ⟨[], none⟩)] := by
  refine ⟨?_, rfl⟩
  intro fs res h
  exact runFilesAux_nodup fs _ [] res (by simp) h

/-- Witness for C8: the theorem applied to the duplicate-name directory. -/
theorem result_keys_unique_witness :
    (([(("Dup::Res").data, (⟨[("B1").data], none⟩ : Record)),
       (("AWS::S3::Bucket").data, (⟨[], none⟩ : Record))]).map Prod.fst).Nodup :=
  result_keys_unique.1 c8fs
    [(("Dup::Res").data, ⟨[("B1").data], none⟩),
     (("AWS::S3::Bucket").data, ⟨[], none⟩)] rfl
